import Mathlib

/-!
# Verification of `sage.combinat.linear_recurrence_sequences`

A shallow embedding of the `LinearRecurrenceSequence` class from
`src/src/sage/combinat/linear_recurrence_sequences.py`, together with proofs
of the properties stated in the specification: construction-time validation,
companion-matrix term evaluation (exact and modular), the characteristic
polynomial, and the minimal polynomial.

Machine integers do not appear: the Python source works with Sage's exact
integers, embedded here as `ℤ`, and `Integers(m)` for a positive modulus `m`
is embedded as `ZMod m`.
-/

/-- The sole entity of the data model: the raw defining data `(u, a)` stored
by `__init__` (`self.u = u; self.a = a`). -/
structure LinearRecurrenceSequence where
  u : List ℤ
  a : List ℤ

/-- `self.d = len(u)`, the derived order. -/
def LinearRecurrenceSequence.d (s : LinearRecurrenceSequence) : ℕ := s.u.length

/-- The error kinds raised by `__init__`: the `ValueError` for a length
mismatch and the two `NotImplementedError`s for small orders. -/
inductive ConstructionError where
  | LengthMismatch
  | UnsupportedOrder
  | UseBinarySpecialization

/-- `__init__(self, u, a)`: stores `u`, `a`, `d = len(u)`, then raises
`ValueError` when `len(u) != len(a)`, and `NotImplementedError` when
`d < 2` or `d == 2`, in that order (source lines 112-121). -/
def LinearRecurrenceSequence.init (u a : List ℤ) :
    Except ConstructionError LinearRecurrenceSequence :=
  if u.length ≠ a.length then .error .LengthMismatch
  else if u.length < 3 then
    if u.length < 2 then .error .UnsupportedOrder
    else .error .UseBinarySpecialization
  else .ok ⟨u, a⟩

/-- A recurrence is valid when it passes `__init__`'s validation:
`len(u) == len(a)` and the common order is at least 3. -/
def LinearRecurrenceSequence.Valid (s : LinearRecurrenceSequence) : Prop :=
  s.u.length = s.a.length ∧ 3 ≤ s.u.length

instance (s : LinearRecurrenceSequence) : Decidable s.Valid := by
  unfold LinearRecurrenceSequence.Valid
  exact inferInstance

/-- `[-c for c in reversed(self.a)] + [1]`, the coefficient list (little
endian) of the characteristic polynomial, as built in `__call__`,
`characteristic_polynomial` and `transformation_matrix`. -/
def charpolyList (a : List ℤ) : List ℤ := (a.reverse.map fun c => -c) ++ [1]

/-- Modelled from the spec: `companion_matrix(p, format='bottom')` lives in
`sage.matrix.special`, outside `src/`.  For a monic polynomial of degree `d`
given by its little-endian coefficient list `p_0, ..., p_{d-1}, 1`, it is the
`d × d` matrix with ones on the superdiagonal and bottom row
`-p_0, ..., -p_{d-1}`, so that (as stated by the source's comment on line 185)
`F * (u_n, ..., u_{n+d-1})^T = (u_{n+1}, ..., u_{n+d})^T`. -/
def companion_matrix (d : ℕ) (p : List ℤ) : Matrix (Fin d) (Fin d) ℤ :=
  Matrix.of fun i j =>
    if (i : ℕ) + 1 = d then -(p.getD (j : ℕ) 0)
    else if (j : ℕ) = (i : ℕ) + 1 then 1 else 0

/-- `__call__(self, n, modulus=0)` with the sentinel modulus `0`, where
`Integers(0)` is the ring of integers itself: build the companion matrix `F`
of the characteristic polynomial, then return `list(F**n * v)[0]` for
`v = (u_0, ..., u_{d-1})`. -/
def LinearRecurrenceSequence.term (s : LinearRecurrenceSequence) (n : ℕ) : ℤ :=
  let F := companion_matrix s.d (charpolyList s.a)
  let v : Fin s.d → ℤ := fun i => s.u.getD (i : ℕ) 0
  (List.ofFn ((F ^ n).mulVec v)).getD 0 0

/-- `__call__(self, n, modulus=m)` for a positive modulus: the same
computation carried out over `Integers(m) = ZMod m`, the companion matrix
being reduced entrywise (`change_ring`) and `u` being cast into the ring. -/
def LinearRecurrenceSequence.termMod (s : LinearRecurrenceSequence) (n : ℕ)
    (m : ℕ) : ZMod m :=
  let F := (companion_matrix s.d (charpolyList s.a)).map
    (Int.cast : ℤ → ZMod m)
  let v : Fin s.d → ZMod m := fun i => ((s.u.getD (i : ℕ) 0 : ℤ) : ZMod m)
  (List.ofFn ((F ^ n).mulVec v)).getD 0 0

/-- A univariate polynomial from a little-endian coefficient list, as Sage's
`R(list)` for `R = PolynomialRing(Integers(), 'x')`. -/
noncomputable def polyOfList (l : List ℤ) : Polynomial ℤ :=
  ∑ i in Finset.range l.length, Polynomial.C (l.getD i 0) * Polynomial.X ^ i

/-- `characteristic_polynomial(self)`:
`R([-c for c in reversed(self.a)] + [1])` over the integers
(source lines 199-201). -/
noncomputable def LinearRecurrenceSequence.characteristic_polynomial
    (s : LinearRecurrenceSequence) : Polynomial ℤ :=
  polyOfList (charpolyList s.a)

/-- The state vector `F**n * v` computed inside `__call__`; the returned term
is its first entry. -/
def LinearRecurrenceSequence.stateVec (s : LinearRecurrenceSequence) (n : ℕ) :
    Fin s.d → ℤ :=
  ((companion_matrix s.d (charpolyList s.a)) ^ n).mulVec
    fun i => s.u.getD (i : ℕ) 0

/-! ### Helper lemmas -/

theorem charpolyList_getD_lt (a : List ℤ) (j : ℕ) (hj : j < a.length) :
    (charpolyList a).getD j 0 = -(a.getD (a.length - 1 - j) 0) := by
  unfold charpolyList
  rw [List.getD_append _ _ _ _ (by simpa using hj)]
  rw [List.getD_eq_getElem _ _ (by simpa using hj)]
  rw [List.getD_eq_getElem _ _ (by omega)]
  simp

theorem charpolyList_length (a : List ℤ) :
    (charpolyList a).length = a.length + 1 := by
  simp [charpolyList]

theorem charpolyList_getD_top (a : List ℤ) :
    (charpolyList a).getD a.length 0 = 1 := by
  unfold charpolyList
  rw [List.getD_append_right _ _ _ _ (by simp)]
  simp

theorem companion_mulVec_top (d : ℕ) (p : List ℤ) (x : Fin d → ℤ) (i : Fin d)
    (h : (i : ℕ) + 1 < d) :
    (companion_matrix d p).mulVec x i = x ⟨(i : ℕ) + 1, h⟩ := by
  have hne : (i : ℕ) + 1 ≠ d := Nat.ne_of_lt h
  simp only [companion_matrix, Matrix.mulVec, Matrix.dotProduct,
    Matrix.of_apply, hne, if_false]
  have hiff : ∀ j : Fin d, ((j : ℕ) = (i : ℕ) + 1) ↔ (j = ⟨(i : ℕ) + 1, h⟩) :=
    fun j => by rw [Fin.ext_iff]
  simp only [hiff, ite_mul, one_mul, zero_mul]
  rw [Finset.sum_ite_eq' Finset.univ (⟨(i : ℕ) + 1, h⟩ : Fin d) x]
  simp

theorem companion_mulVec_bottom (d : ℕ) (p : List ℤ) (x : Fin d → ℤ)
    (i : Fin d) (h : (i : ℕ) + 1 = d) :
    (companion_matrix d p).mulVec x i = ∑ j : Fin d, -(p.getD (j : ℕ) 0) * x j := by
  simp only [companion_matrix, Matrix.mulVec, Matrix.dotProduct,
    Matrix.of_apply, h, if_true]

theorem ofFn_getD_zero {α : Type*} {d : ℕ} (g : Fin d → α) (x : α)
    (h0 : 0 < d) : (List.ofFn g).getD 0 x = g ⟨0, h0⟩ := by
  cases d with
  | zero => omega
  | succ k => rw [List.ofFn_succ]; rfl

theorem term_eq_stateVec (s : LinearRecurrenceSequence) (h0 : 0 < s.d)
    (n : ℕ) : s.term n = s.stateVec n ⟨0, h0⟩ := by
  simp only [LinearRecurrenceSequence.term, LinearRecurrenceSequence.stateVec]
  exact ofFn_getD_zero _ _ h0

theorem stateVec_succ (s : LinearRecurrenceSequence) (n : ℕ) :
    s.stateVec (n + 1) =
      (companion_matrix s.d (charpolyList s.a)).mulVec (s.stateVec n) := by
  unfold LinearRecurrenceSequence.stateVec
  rw [pow_succ', ← Matrix.mulVec_mulVec]

theorem stateVec_zero (s : LinearRecurrenceSequence) :
    s.stateVec 0 = fun i : Fin s.d => s.u.getD (i : ℕ) 0 := by
  unfold LinearRecurrenceSequence.stateVec
  rw [pow_zero, Matrix.one_mulVec]

theorem stateVec_shift (s : LinearRecurrenceSequence) :
    ∀ (k n : ℕ) (hk : k < s.d) (h0 : 0 < s.d),
      s.stateVec n ⟨k, hk⟩ = s.stateVec (n + k) ⟨0, h0⟩ := by
  intro k
  induction k with
  | zero => intro n hk h0; rfl
  | succ k ih =>
    intro n hk h0
    have hstep : s.stateVec (n + 1) ⟨k, by omega⟩ = s.stateVec n ⟨k + 1, hk⟩ := by
      rw [stateVec_succ]
      exact companion_mulVec_top _ _ _ ⟨k, by omega⟩ hk
    rw [← hstep, ih (n + 1) (by omega) h0]
    congr 1
    omega

theorem bottom_coeff (s : LinearRecurrenceSequence) (hv : s.Valid)
    (j : Fin s.d) :
    -((charpolyList s.a).getD (j : ℕ) 0) = s.a.getD (s.d - 1 - (j : ℕ)) 0 := by
  obtain ⟨hlen, _⟩ := hv
  have hj : (j : ℕ) < s.a.length := by rw [← hlen]; exact j.isLt
  rw [charpolyList_getD_lt _ _ hj, neg_neg]
  simp [LinearRecurrenceSequence.d, hlen]

theorem term_add_d (s : LinearRecurrenceSequence) (hv : s.Valid) (m : ℕ) :
    s.term (m + s.d) =
      ∑ j : Fin s.d, s.a.getD (s.d - 1 - (j : ℕ)) 0 * s.term (m + (j : ℕ)) := by
  have h0 : 0 < s.d := lt_of_lt_of_le (by norm_num) hv.2
  have hd1 : s.d - 1 < s.d := by omega
  rw [term_eq_stateVec s h0]
  have h1 : s.stateVec (m + 1) ⟨s.d - 1, hd1⟩ = s.stateVec (m + s.d) ⟨0, h0⟩ := by
    rw [stateVec_shift s (s.d - 1) (m + 1) hd1 h0]
    congr 1
    omega
  rw [← h1, stateVec_succ,
    companion_mulVec_bottom _ _ _ _ (by show s.d - 1 + 1 = s.d; omega)]
  apply Finset.sum_congr rfl
  intro j _
  rw [bottom_coeff s hv j]
  congr 1
  rw [term_eq_stateVec s h0, ← stateVec_shift s (j : ℕ) m j.isLt h0]

/-! ### Claim theorems -/

/-- C1: for every valid recurrence `(u, a)` (so `d ≥ 3`) and every index
`n ≥ d`, the evaluation of `__call__` with the sentinel modulus `0` satisfies
the defining recurrence
`term(n) = a_0*term(n-1) + a_1*term(n-2) + ... + a_{d-1}*term(n-d)`. -/
theorem term_recurrence (s : LinearRecurrenceSequence) (hv : s.Valid) (n : ℕ)
    (hn : s.d ≤ n) :
    s.term n = ∑ i in Finset.range s.d, s.a.getD i 0 * s.term (n - 1 - i) := by
  obtain ⟨m, rfl⟩ : ∃ m, n = m + s.d := ⟨n - s.d, by omega⟩
  rw [term_add_d s hv m,
    Fin.sum_univ_eq_sum_range
      (fun j => s.a.getD (s.d - 1 - j) 0 * s.term (m + j)) s.d,
    ← Finset.sum_range_reflect
      (fun i => s.a.getD i 0 * s.term (m + s.d - 1 - i)) s.d]
  apply Finset.sum_congr rfl
  intro j hj
  have hj' : j < s.d := Finset.mem_range.mp hj
  have harg : m + j = m + s.d - 1 - (s.d - 1 - j) := by omega
  rw [← harg]

/-- Witness for C1: the Tribonacci sequence at `n = 3`. -/
theorem term_recurrence_witness :
    (LinearRecurrenceSequence.mk [0,0,1] [1,1,1]).term 3 =
      ∑ i in Finset.range (LinearRecurrenceSequence.mk [0,0,1] [1,1,1]).d,
        (LinearRecurrenceSequence.mk [0,0,1] [1,1,1]).a.getD i 0 *
          (LinearRecurrenceSequence.mk [0,0,1] [1,1,1]).term (3 - 1 - i) :=
  term_recurrence _ (by decide) 3 (by decide)

/-- C2: for every valid recurrence and every `0 ≤ i < d`, evaluation with the
sentinel modulus `0` returns the stored initial term `u[i]`; `i = 0` is the
case where the zeroth matrix power is the identity. -/
theorem term_initial (s : LinearRecurrenceSequence) (hv : s.Valid) (i : ℕ)
    (hi : i < s.d) : s.term i = s.u.getD i 0 := by
  have h0 : 0 < s.d := lt_of_lt_of_le (by norm_num) hv.2
  rw [term_eq_stateVec s h0 i]
  have h := stateVec_shift s i 0 hi h0
  rw [Nat.zero_add] at h
  rw [← h, stateVec_zero]

/-- Witness for C2: the Tribonacci sequence at `i = 0`. -/
theorem term_initial_witness :
    (LinearRecurrenceSequence.mk [0,0,1] [1,1,1]).term 0 =
      (LinearRecurrenceSequence.mk [0,0,1] [1,1,1]).u.getD 0 0 :=
  term_initial _ (by decide) 0 (by decide)

/-- C3: for every valid recurrence, every `n ≥ 0` and every positive modulus
`m`, the reduced evaluation agrees with reducing the exact evaluation
(`term(n, m) == term(n) mod m`), and the modulus `1` always yields `0`. -/
theorem termMod_eq (s : LinearRecurrenceSequence) (hv : s.Valid) (n m : ℕ)
    (hm : 0 < m) :
    s.termMod n m = ((s.term n : ℤ) : ZMod m) ∧ s.termMod n 1 = 0 := by
  constructor
  · have h0 : 0 < s.d := lt_of_lt_of_le (by norm_num) hv.2
    simp only [LinearRecurrenceSequence.termMod, LinearRecurrenceSequence.term]
    rw [ofFn_getD_zero _ _ h0, ofFn_getD_zero _ _ h0]
    have hmap :
        ((companion_matrix s.d (charpolyList s.a)).map
            (Int.cast : ℤ → ZMod m)) ^ n
          = ((companion_matrix s.d (charpolyList s.a)) ^ n).map
            (Int.cast : ℤ → ZMod m) := by
      have h := map_pow ((Int.castRingHom (ZMod m)).mapMatrix)
        (companion_matrix s.d (charpolyList s.a)) n
      simpa [RingHom.mapMatrix_apply] using h.symm
    rw [hmap]
    simp only [Matrix.mulVec, Matrix.dotProduct, Matrix.map_apply]
    push_cast
    rfl
  · exact Subsingleton.elim _ _

/-- Witness for C3: the order-3 example of the source's doctest,
`R(100, 12) == R(100) % 12` and `R(100, 1) == 0`. -/
theorem termMod_eq_witness :
    (LinearRecurrenceSequence.mk [0,1,2] [-2,1,2]).termMod 100 12 =
      (((LinearRecurrenceSequence.mk [0,1,2] [-2,1,2]).term 100 : ℤ) : ZMod 12) ∧
    (LinearRecurrenceSequence.mk [0,1,2] [-2,1,2]).termMod 100 1 = 0 :=
  termMod_eq _ (by decide) 100 12 (by decide)

/-- The closed form of the characteristic polynomial,
`x^d - a_0*x^{d-1} - a_1*x^{d-2} - ... - a_{d-1}`, written from `(d, a)`. -/
noncomputable def charpolyClosedForm (d : ℕ) (a : List ℤ) : Polynomial ℤ :=
  Polynomial.X ^ d -
    ∑ i in Finset.range d, Polynomial.C (a.getD i 0) * Polynomial.X ^ (d - 1 - i)

theorem characteristic_polynomial_eq (s : LinearRecurrenceSequence)
    (hv : s.Valid) :
    s.characteristic_polynomial = charpolyClosedForm s.d s.a := by
  have hlen : s.a.length = s.d := hv.1.symm
  unfold LinearRecurrenceSequence.characteristic_polynomial polyOfList
    charpolyClosedForm
  rw [charpolyList_length, hlen, Finset.sum_range_succ]
  have htop : (charpolyList s.a).getD s.d 0 = 1 := by
    rw [← hlen]; exact charpolyList_getD_top s.a
  rw [htop, map_one, one_mul]
  have hco : ∀ i ∈ Finset.range s.d,
      Polynomial.C ((charpolyList s.a).getD i 0) * Polynomial.X ^ i
        = -(Polynomial.C (s.a.getD (s.d - 1 - i) 0) * Polynomial.X ^ i) := by
    intro i hi
    have hi' : i < s.a.length := by
      rw [hlen]; exact Finset.mem_range.mp hi
    rw [charpolyList_getD_lt s.a i hi', hlen, Polynomial.C_neg, neg_mul]
  rw [Finset.sum_congr rfl hco, Finset.sum_neg_distrib,
    ← Finset.sum_range_reflect
      (fun i => Polynomial.C (s.a.getD i 0) * Polynomial.X ^ (s.d - 1 - i)) s.d]
  have hexp : ∀ j ∈ Finset.range s.d,
      Polynomial.C (s.a.getD (s.d - 1 - j) 0) *
          Polynomial.X ^ (s.d - 1 - (s.d - 1 - j))
        = Polynomial.C (s.a.getD (s.d - 1 - j) 0) * Polynomial.X ^ j := by
    intro j hj
    have hj' : j < s.d := Finset.mem_range.mp hj
    have : s.d - 1 - (s.d - 1 - j) = j := by omega
    rw [this]
  rw [Finset.sum_congr rfl hexp, neg_add_eq_sub]

theorem charpolyClosedForm_tail_degree (d : ℕ) (a : List ℤ) (hd : 0 < d) :
    (∑ i in Finset.range d,
        Polynomial.C (a.getD i 0) * Polynomial.X ^ (d - 1 - i)).degree
      < (d : WithBot ℕ) := by
  apply lt_of_le_of_lt (Polynomial.degree_sum_le _ _)
  rw [Finset.sup_lt_iff (by exact WithBot.bot_lt_coe d)]
  intro i _
  apply lt_of_le_of_lt (Polynomial.degree_C_mul_X_pow_le _ _)
  exact_mod_cast Nat.lt_of_le_of_lt (Nat.sub_le _ _) (by omega)

theorem characteristic_polynomial_degree (s : LinearRecurrenceSequence)
    (hv : s.Valid) :
    s.characteristic_polynomial.degree = (s.d : WithBot ℕ) := by
  have hd : 0 < s.d := lt_of_lt_of_le (by norm_num) hv.2
  rw [characteristic_polynomial_eq s hv]
  unfold charpolyClosedForm
  rw [Polynomial.degree_sub_eq_left_of_degree_lt
    (by rw [Polynomial.degree_X_pow]
        exact charpolyClosedForm_tail_degree s.d s.a hd)]
  exact Polynomial.degree_X_pow s.d

theorem characteristic_polynomial_monic (s : LinearRecurrenceSequence)
    (hv : s.Valid) : s.characteristic_polynomial.Monic := by
  have hd : 0 < s.d := lt_of_lt_of_le (by norm_num) hv.2
  rw [characteristic_polynomial_eq s hv]
  unfold charpolyClosedForm
  exact Polynomial.monic_X_pow_sub (charpolyClosedForm_tail_degree s.d s.a hd)

theorem characteristic_polynomial_natDegree (s : LinearRecurrenceSequence)
    (hv : s.Valid) : s.characteristic_polynomial.natDegree = s.d :=
  Polynomial.natDegree_eq_of_degree_eq_some
    (characteristic_polynomial_degree s hv)

/-- C4: for every valid recurrence, `characteristic_polynomial()` is the
monic degree-`d` integer polynomial
`x^d - a_0*x^{d-1} - a_1*x^{d-2} - ... - a_{d-1}`, and it is a pure function
of `a` alone (independent of `u`). -/
theorem characteristic_polynomial_spec (s : LinearRecurrenceSequence)
    (hv : s.Valid) :
    s.characteristic_polynomial = charpolyClosedForm s.d s.a
      ∧ s.characteristic_polynomial.degree = (s.d : WithBot ℕ)
      ∧ s.characteristic_polynomial.Monic
      ∧ ∀ t : LinearRecurrenceSequence, t.a = s.a →
          t.characteristic_polynomial = s.characteristic_polynomial := by
  refine ⟨characteristic_polynomial_eq s hv,
    characteristic_polynomial_degree s hv,
    characteristic_polynomial_monic s hv, ?_⟩
  intro t ht
  unfold LinearRecurrenceSequence.characteristic_polynomial
  rw [ht]

/-- Witness for C4: the Tribonacci recurrence. -/
theorem characteristic_polynomial_spec_witness :
    (LinearRecurrenceSequence.mk [0,0,1] [1,1,1]).characteristic_polynomial
        = charpolyClosedForm (LinearRecurrenceSequence.mk [0,0,1] [1,1,1]).d
            (LinearRecurrenceSequence.mk [0,0,1] [1,1,1]).a
      ∧ (LinearRecurrenceSequence.mk [0,0,1] [1,1,1]).characteristic_polynomial.degree
          = ((LinearRecurrenceSequence.mk [0,0,1] [1,1,1]).d : WithBot ℕ)
      ∧ (LinearRecurrenceSequence.mk [0,0,1] [1,1,1]).characteristic_polynomial.Monic
      ∧ ∀ t : LinearRecurrenceSequence,
          t.a = (LinearRecurrenceSequence.mk [0,0,1] [1,1,1]).a →
          t.characteristic_polynomial
            = (LinearRecurrenceSequence.mk [0,0,1] [1,1,1]).characteristic_polynomial :=
  characteristic_polynomial_spec _ (by decide)

/-- C6: construction fails with the length-mismatch error when
`len(u) != len(a)`, with the unsupported-order error when the common length
is below 2, with the binary-specialization error when it is exactly 2, and
otherwise succeeds storing `u`, `a` verbatim with `d = len(u)`. -/
theorem init_spec (u a : List ℤ) :
    (u.length ≠ a.length →
        LinearRecurrenceSequence.init u a = .error .LengthMismatch)
      ∧ (u.length = a.length → u.length < 2 →
        LinearRecurrenceSequence.init u a = .error .UnsupportedOrder)
      ∧ (u.length = a.length → u.length = 2 →
        LinearRecurrenceSequence.init u a = .error .UseBinarySpecialization)
      ∧ (u.length = a.length → 3 ≤ u.length →
        LinearRecurrenceSequence.init u a = .ok ⟨u, a⟩
          ∧ (LinearRecurrenceSequence.mk u a).u = u
          ∧ (LinearRecurrenceSequence.mk u a).a = a
          ∧ (LinearRecurrenceSequence.mk u a).d = u.length) := by
  refine ⟨?_, ?_, ?_, ?_⟩
  · intro hne
    simp [LinearRecurrenceSequence.init, hne]
  · intro heq hlt
    unfold LinearRecurrenceSequence.init
    rw [if_neg (by omega), if_pos (by omega), if_pos hlt]
  · intro heq h2
    unfold LinearRecurrenceSequence.init
    rw [if_neg (by omega), if_pos (by omega), if_neg (by omega)]
  · intro heq h3
    unfold LinearRecurrenceSequence.init
    rw [if_neg (by omega), if_neg (by omega)]
    exact ⟨rfl, rfl, rfl, rfl⟩

/-- Witness for C6: an order-2 input is routed to the binary
specialization. -/
theorem init_spec_witness :
    LinearRecurrenceSequence.init [0,1] [1,1]
      = .error .UseBinarySpecialization :=
  (init_spec [0,1] [1,1]).2.2.1 (by decide) (by decide)

/-- C10: the length check comes first, so mismatched lengths always give the
length-mismatch error even when the lengths are also below 3. -/
theorem init_length_checked_first (u a : List ℤ)
    (hne : u.length ≠ a.length) :
    LinearRecurrenceSequence.init u a = .error .LengthMismatch := by
  simp [LinearRecurrenceSequence.init, hne]

/-- Witness for C10: `u = [1]`, `a = [1, 2]` (both lengths below 3). -/
theorem init_length_checked_first_witness :
    LinearRecurrenceSequence.init [1] [1,2] = .error .LengthMismatch :=
  init_length_checked_first [1] [1,2] (by decide)

set_option maxRecDepth 4000 in
/-- C9: the Tribonacci instance `u=[0,0,1]`, `a=[1,1,1]` has
`term(100) = 53324762928098149064722658`, as in the source's doctest. -/
theorem tribonacci_term_100 :
    (LinearRecurrenceSequence.mk [0,0,1] [1,1,1]).term 100
      = 53324762928098149064722658 := by
  decide

/-- The error kinds of the spec's caller-contract violations for
`__call__`. -/
inductive CallError where
  | InvalidIndex
  | InvalidModulus

/-- Modelled from the spec: the full integer-argument surface of
`__call__(n, modulus)`.  The body of `__call__` (source lines 182-187)
performs no validation itself; `Integers(modulus)` (in
`sage.rings.finite_rings.integer_mod_ring`, not under `src/`) rejects a
modulus that is neither positive nor the sentinel `0` (`InvalidModulus`),
and the matrix-power primitive (`sage.matrix`, not under `src/`) receives
the exponent `n`, which the spec declares a caller contract violation when
negative (`InvalidIndex`).  The modulus is examined first because
`Integers(modulus)` runs before `F**n`.  On valid input the result is the
evaluation embedded above: exact for the sentinel `0`, and the canonical
residue of `Integers(m)` otherwise. -/
def LinearRecurrenceSequence.call (s : LinearRecurrenceSequence) (n : ℤ)
    (modulus : ℤ) : Except CallError ℤ :=
  if modulus < 0 then .error .InvalidModulus
  else if n < 0 then .error .InvalidIndex
  else if modulus = 0 then .ok (s.term n.toNat)
  else .ok ((s.termMod n.toNat modulus.toNat).val : ℤ)

/-- C7: for every valid recurrence and every negative index `n`, term
evaluation (with the default sentinel modulus `0`) fails with the
invalid-index error. -/
theorem call_negative_index (s : LinearRecurrenceSequence) (hv : s.Valid)
    (n : ℤ) (hn : n < 0) : s.call n 0 = .error .InvalidIndex := by
  simp [LinearRecurrenceSequence.call, hn]

/-- Witness for C7: the Tribonacci sequence at `n = -1`. -/
theorem call_negative_index_witness :
    (LinearRecurrenceSequence.mk [0,0,1] [1,1,1]).call (-1) 0
      = .error .InvalidIndex :=
  call_negative_index _ (by decide) (-1) (by decide)

/-- C8: for every valid recurrence and every index `n ≥ 0`, a modulus that
is neither positive nor the sentinel `0` (that is, a negative modulus) makes
evaluation fail with the invalid-modulus error. -/
theorem call_invalid_modulus (s : LinearRecurrenceSequence) (hv : s.Valid)
    (n m : ℤ) (hn : 0 ≤ n) (hm : m < 0) :
    s.call n m = .error .InvalidModulus := by
  simp [LinearRecurrenceSequence.call, hm]

/-- Witness for C8: the Tribonacci sequence at `n = 0`, modulus `-5`. -/
theorem call_invalid_modulus_witness :
    (LinearRecurrenceSequence.mk [0,0,1] [1,1,1]).call 0 (-5)
      = .error .InvalidModulus :=
  call_invalid_modulus _ (by decide) 0 (-5) (by decide) (by decide)

/-! ### Minimal polynomial (C5)

`minimal_polynomial` (source lines 203-214) assembles the first `2d` terms of
the sequence and hands them to `berlekamp_massey`, which lives in
`sage.matrix.berlekamp_massey`, outside `src/`.  The input list is embedded
faithfully below (`bmInput`); the Berlekamp-Massey output is modelled from
the spec. -/

/-- `input = self.u + [self(self.d+i) for i in range(self.d)]`
(source line 213). -/
def LinearRecurrenceSequence.bmInput (s : LinearRecurrenceSequence) :
    List ℤ :=
  s.u ++ (List.range s.d).map fun i => s.term (s.d + i)

/-- The left-shift endomorphism on rational sequences. -/
def seqShift : Module.End ℚ (ℕ → ℚ) where
  toFun f := fun n => f (n + 1)
  map_add' _ _ := rfl
  map_smul' _ _ := rfl

/-- The term sequence of the recurrence, viewed over `ℚ` (the field over
which Sage's `berlekamp_massey` works for exact integer input). -/
def LinearRecurrenceSequence.termSeqQ (s : LinearRecurrenceSequence) :
    ℕ → ℚ :=
  fun n => ((s.term n : ℤ) : ℚ)

/-- The ideal of polynomials annihilating a sequence `t`: `p` belongs to it
when applying `p` evaluated at the shift operator sends `t` to the zero
sequence, i.e. when `t` satisfies the linear recurrence with characteristic
polynomial `p` at every index. -/
noncomputable def seqAnnihilator (t : ℕ → ℚ) : Ideal (Polynomial ℚ) where
  carrier := {p : Polynomial ℚ | Polynomial.aeval seqShift p t = 0}
  zero_mem' := by simp
  add_mem' := by
    intro p q hp hq
    simp only [Set.mem_setOf_eq, map_add, LinearMap.add_apply] at hp hq ⊢
    rw [hp, hq, add_zero]
  smul_mem' := by
    intro c p hp
    simp only [Set.mem_setOf_eq, smul_eq_mul, map_mul,
      LinearMap.mul_apply] at hp ⊢
    rw [hp, map_zero]

/-- Modelled from the spec: `berlekamp_massey(input)` is outside `src/`.
Per the spec (section 4.4), the returned polynomial is "the monic polynomial
of least degree such that the sequence `u` satisfies the corresponding
recurrence", the `2d` samples certifying any recurrence of degree at most
`d`; that polynomial is the monic generator of the annihilator ideal of the
term sequence, embedded here as the normalized generator of that (principal)
ideal of `ℚ[x]`. -/
noncomputable def LinearRecurrenceSequence.minimal_polynomial
    (s : LinearRecurrenceSequence) : Polynomial ℚ :=
  letI := IsPrincipalIdealRing.principal (seqAnnihilator s.termSeqQ)
  normalize (Submodule.IsPrincipal.generator (seqAnnihilator s.termSeqQ))

theorem seqShift_pow_apply :
    ∀ (k : ℕ) (t : ℕ → ℚ) (n : ℕ), ((seqShift ^ k) t) n = t (n + k) := by
  intro k
  induction k with
  | zero => intro t n; rfl
  | succ k ih =>
    intro t n
    rw [pow_succ, LinearMap.mul_apply, ih (seqShift t) n]
    rfl

theorem aeval_seqShift_apply (p : Polynomial ℚ) (t : ℕ → ℚ) (n : ℕ) :
    (Polynomial.aeval seqShift p) t n
      = ∑ i in Finset.range (p.natDegree + 1), p.coeff i * t (n + i) := by
  rw [Polynomial.aeval_eq_sum_range, LinearMap.sum_apply, Finset.sum_apply]
  apply Finset.sum_congr rfl
  intro i _
  rw [LinearMap.smul_apply, Pi.smul_apply, smul_eq_mul, seqShift_pow_apply]

theorem mem_seqAnnihilator_iff (t : ℕ → ℚ) (p : Polynomial ℚ) :
    p ∈ seqAnnihilator t ↔ ∀ n : ℕ,
      ∑ i in Finset.range (p.natDegree + 1), p.coeff i * t (n + i) = 0 := by
  have h0 : p ∈ seqAnnihilator t ↔ Polynomial.aeval seqShift p t = 0 :=
    Iff.rfl
  rw [h0, funext_iff]
  apply forall_congr'
  intro n
  rw [aeval_seqShift_apply]
  rfl

theorem polyOfList_coeff (l : List ℤ) (k : ℕ) :
    (polyOfList l).coeff k = l.getD k 0 := by
  unfold polyOfList
  rw [Polynomial.finset_sum_coeff]
  simp only [Polynomial.coeff_C_mul, Polynomial.coeff_X_pow, mul_ite, mul_one,
    mul_zero]
  rw [Finset.sum_ite_eq (Finset.range l.length) k fun i => l.getD i 0]
  by_cases hk : k ∈ Finset.range l.length
  · rw [if_pos hk]
  · rw [if_neg hk, List.getD_eq_default]
    simpa using hk

theorem charpoly_mem_seqAnnihilator (s : LinearRecurrenceSequence)
    (hv : s.Valid) :
    s.characteristic_polynomial.map (Int.castRingHom ℚ)
      ∈ seqAnnihilator s.termSeqQ := by
  have hlen : s.d = s.a.length := hv.1
  rw [mem_seqAnnihilator_iff]
  intro n
  have hnd : (s.characteristic_polynomial.map (Int.castRingHom ℚ)).natDegree
      = s.d := by
    rw [(characteristic_polynomial_monic s hv).natDegree_map]
    exact characteristic_polynomial_natDegree s hv
  have htop : (s.characteristic_polynomial.map (Int.castRingHom ℚ)).coeff s.d
      = 1 := by
    rw [Polynomial.coeff_map]
    unfold LinearRecurrenceSequence.characteristic_polynomial
    rw [polyOfList_coeff, hlen, charpolyList_getD_top, map_one]
  have hlow : ∀ i < s.d,
      (s.characteristic_polynomial.map (Int.castRingHom ℚ)).coeff i
        = -((s.a.getD (s.d - 1 - i) 0 : ℤ) : ℚ) := by
    intro i hi
    rw [Polynomial.coeff_map]
    unfold LinearRecurrenceSequence.characteristic_polynomial
    rw [polyOfList_coeff, charpolyList_getD_lt s.a i (by omega), ← hlen]
    simp
  rw [hnd, Finset.sum_range_succ, htop, one_mul,
    Finset.sum_congr rfl fun i hi => by
      rw [hlow i (Finset.mem_range.mp hi)]]
  have hrec : s.termSeqQ (n + s.d)
      = ∑ i in Finset.range s.d,
          ((s.a.getD (s.d - 1 - i) 0 : ℤ) : ℚ) * s.termSeqQ (n + i) := by
    have h2 : s.term (n + s.d)
        = ∑ j in Finset.range s.d, s.a.getD (s.d - 1 - j) 0 * s.term (n + j) := by
      rw [term_add_d s hv n, Fin.sum_univ_eq_sum_range
        (fun j => s.a.getD (s.d - 1 - j) 0 * s.term (n + j)) s.d]
    unfold LinearRecurrenceSequence.termSeqQ
    exact_mod_cast congrArg (fun z : ℤ => (z : ℚ)) h2
  rw [hrec]
  simp [neg_mul, Finset.sum_neg_distrib]

theorem bmInput_eq_firstTerms (s : LinearRecurrenceSequence) (hv : s.Valid) :
    s.bmInput = (List.range (2 * s.d)).map s.term := by
  apply List.ext_getElem
  · simp only [LinearRecurrenceSequence.bmInput, List.length_append,
      List.length_map, List.length_range, LinearRecurrenceSequence.d]
    omega
  · intro i h1 h2
    simp only [List.getElem_map, List.getElem_range]
    unfold LinearRecurrenceSequence.bmInput
    by_cases hi : i < s.u.length
    · rw [List.getElem_append_left hi]
      have h := term_initial s hv i hi
      rw [List.getD_eq_getElem _ _ hi] at h
      exact h.symm
    · rw [List.getElem_append_right (by omega)]
      simp only [List.getElem_map, List.getElem_range]
      have hd : s.d = s.u.length := rfl
      congr 1
      rw [hd]
      omega

/-- C5: for every valid recurrence, the Berlekamp-Massey input assembled by
`minimal_polynomial` is exactly the list of the first `2d` terms of the
sequence, and the resulting minimal polynomial is a monic least-degree
annihilator of the sequence that divides `characteristic_polynomial()` with
zero remainder (over `ℚ`, the field Berlekamp-Massey works in). -/
theorem minimal_polynomial_spec (s : LinearRecurrenceSequence)
    (hv : s.Valid) :
    s.bmInput = (List.range (2 * s.d)).map s.term
      ∧ s.minimal_polynomial.Monic
      ∧ s.minimal_polynomial ∈ seqAnnihilator s.termSeqQ
      ∧ (∀ q ∈ seqAnnihilator s.termSeqQ, q ≠ 0 →
          s.minimal_polynomial.natDegree ≤ q.natDegree)
      ∧ s.minimal_polynomial ∣
          s.characteristic_polynomial.map (Int.castRingHom ℚ) := by
  letI := IsPrincipalIdealRing.principal (seqAnnihilator s.termSeqQ)
  have hmem := charpoly_mem_seqAnnihilator s hv
  have hcpne : s.characteristic_polynomial.map (Int.castRingHom ℚ) ≠ 0 :=
    ((characteristic_polynomial_monic s hv).map _).ne_zero
  have hgne : Submodule.IsPrincipal.generator (seqAnnihilator s.termSeqQ) ≠ 0 := by
    intro h0
    apply hcpne
    have hbot : seqAnnihilator s.termSeqQ = ⊥ :=
      (Submodule.IsPrincipal.eq_bot_iff_generator_eq_zero _).mpr h0
    rw [hbot] at hmem
    simpa using hmem
  have hdvd : ∀ q ∈ seqAnnihilator s.termSeqQ,
      Submodule.IsPrincipal.generator (seqAnnihilator s.termSeqQ) ∣ q :=
    fun q hq => (Submodule.IsPrincipal.mem_iff_generator_dvd _).mp hq
  have hmp : s.minimal_polynomial
      = normalize (Submodule.IsPrincipal.generator (seqAnnihilator s.termSeqQ)) :=
    rfl
  refine ⟨bmInput_eq_firstTerms s hv, ?_, ?_, ?_, ?_⟩
  · rw [hmp]
    exact Polynomial.monic_normalize hgne
  · rw [hmp, normalize_apply]
    exact Ideal.mul_mem_right _ _ (Submodule.IsPrincipal.generator_mem _)
  · intro q hq hqne
    rw [hmp]
    exact Polynomial.natDegree_le_of_dvd (normalize_dvd_iff.mpr (hdvd q hq)) hqne
  · rw [hmp]
    exact normalize_dvd_iff.mpr (hdvd _ hmem)

/-- Witness for C5: the Tribonacci recurrence. -/
theorem minimal_polynomial_spec_witness :
    (LinearRecurrenceSequence.mk [0,0,1] [1,1,1]).bmInput
        = (List.range (2 * (LinearRecurrenceSequence.mk [0,0,1] [1,1,1]).d)).map
            (LinearRecurrenceSequence.mk [0,0,1] [1,1,1]).term
      ∧ (LinearRecurrenceSequence.mk [0,0,1] [1,1,1]).minimal_polynomial.Monic
      ∧ (LinearRecurrenceSequence.mk [0,0,1] [1,1,1]).minimal_polynomial
          ∈ seqAnnihilator (LinearRecurrenceSequence.mk [0,0,1] [1,1,1]).termSeqQ
      ∧ (∀ q ∈ seqAnnihilator (LinearRecurrenceSequence.mk [0,0,1] [1,1,1]).termSeqQ,
          q ≠ 0 →
          (LinearRecurrenceSequence.mk [0,0,1] [1,1,1]).minimal_polynomial.natDegree
            ≤ q.natDegree)
      ∧ (LinearRecurrenceSequence.mk [0,0,1] [1,1,1]).minimal_polynomial ∣
          (LinearRecurrenceSequence.mk [0,0,1] [1,1,1]).characteristic_polynomial.map
            (Int.castRingHom ℚ) :=
  minimal_polynomial_spec _ (by decide)
